import Mathlib

/-!
Shallow embedding of `src/pdf_processor.py` (pdf-batch-processor).

The embedding models the text-region discovery logic of `process_pdf_file`
(gift-message capture, personalization block scan, quantity highlighting,
ship-to extraction, watermark gating) and the page composers
(`create_two_up_pdf`, `create_six_page_thumbnail_pdf`).

Coordinates are modelled as integers (PDF points); page contents relevant
to the composers are modelled by an emptiness flag (PyMuPDF raises
`ValueError` for pages it judges empty, which the code catches and skips).
Python strings are modelled by `String`, with lowercase conversion,
substring tests and trimming carried out on the character list.
-/

/-- Initial-segment match on character lists (used to model Python's
substring operator `in` and `str.startswith`). -/
def matchesAt : List Char → List Char → Bool
  | [], _ => true
  | _ :: _, [] => false
  | a :: as, b :: bs => a == b && matchesAt as bs

/-- `hasSubList pat text`: does `pat` occur as a contiguous run inside `text`?
Models Python's `pat in text`. -/
def hasSubList (pat : List Char) : List Char → Bool
  | [] => matchesAt pat []
  | c :: cs => matchesAt pat (c :: cs) || hasSubList pat cs

/-- Lowercased character list of a string (models `s.lower()`). -/
def lowerStr (s : String) : List Char :=
  s.toList.map Char.toLower

/-- `containsLower s pat`: Python's `pat in s.lower()` (the source always
compares against lowercase literal phrases). -/
def containsLower (s pat : String) : Bool :=
  hasSubList pat.toList (lowerStr s)

/-- `startsWithLower s pat`: Python's `s.lower().startswith(pat)`. -/
def startsWithLower (s pat : String) : Bool :=
  matchesAt pat.toList (lowerStr s)

/-- Python's `str.strip()` on the character list (whitespace from both ends). -/
def trimList (cs : List Char) : List Char :=
  ((cs.dropWhile Char.isWhitespace).reverse.dropWhile Char.isWhitespace).reverse

/-- Axis-aligned rectangle in page coordinates, y increasing downward
(models `fitz.Rect`). -/
structure Rect where
  x0 : Int
  y0 : Int
  x1 : Int
  y1 : Int
deriving DecidableEq

/-- A word box as returned by `page.get_text("words")`:
`(x0, y0, x1, y1, text)`. -/
structure Word where
  rect : Rect
  text : String
deriving DecidableEq

/-- A reconstructed line as produced by `get_lines`:
`(line_text, line_rect, word_list)`. -/
structure Line where
  text : String
  rect : Rect
  words : List Word
deriving DecidableEq

/-! ### Gift-snippet expansion rectangle (source lines 297–308)

The source sets `expand_left = 36`, `expand_right = 36`, `expand_up = 72`,
`expand_down = 216` and builds
`fitz.Rect(inst.x0 - expand_left, inst.y0 - expand_down,
           inst.x1 + expand_right, inst.y1 + expand_up)`. -/

def giftExpandLeft : Int := 36

def giftExpandRight : Int := 36

def giftExpandUp : Int := 72

def giftExpandDown : Int := 216

/-- The expansion rectangle the code builds around a trigger instance,
exactly as the four arguments are passed to `fitz.Rect`. -/
def expandedGiftRect (inst : Rect) : Rect :=
  { x0 := inst.x0 - giftExpandLeft
    y0 := inst.y0 - giftExpandDown
    x1 := inst.x1 + giftExpandRight
    y1 := inst.y1 + giftExpandUp }

/-! ### Gift-message capture window (source lines 328–342) -/

/-- A line contains the trigger:
`re.search(r"gift message", ln, re.IGNORECASE)`. -/
def hasGiftTrigger (ln : String) : Bool :=
  containsLower ln "gift message"

/-- The capture loop over snippet lines: start capturing at the first
trigger line (inclusive), stop (break) at the second trigger line
(exclusive).  Mirrors the `for ln in lines` loop with the `capturing`
flag. -/
def captureLoop : List String → Bool → List String
  | [], _ => []
  | ln :: rest, capturing =>
    if hasGiftTrigger ln then
      if capturing then
        []
      else
        ln :: captureLoop rest true
    else
      if capturing then
        ln :: captureLoop rest true
      else
        captureLoop rest false

/-- Captured lines for one trigger instance (`capturing` starts `False`). -/
def captureGift (lines : List String) : List String :=
  captureLoop lines false

/-! ### Gift-message per-page dedup (source lines 344–351)

`if final_text and do_text_extraction and gift_doc:` followed by the
per-page seen-set test.  The accumulator list models the per-page
`gift_messages_per_page[page_index]` set. -/

/-- Record extraction entries for the captured texts of the page's trigger
instances, in order, skipping empty texts and texts already seen. -/
def giftDedup : List String → List String → List String
  | [], _ => []
  | t :: ts, seen =>
    if t ≠ "" && !seen.contains t then
      t :: giftDedup ts (t :: seen)
    else
      giftDedup ts seen

/-- Entries recorded for one page (seen-set starts empty). -/
def recordGiftEntries (texts : List String) : List String :=
  giftDedup texts []

/-! ### Personalization block scan (source lines 376–452) -/

def personalization_marker : String := "personalization:"

def item_descriptors : List String :=
  ["word or message:", "word or mssg:", "morse code:"]

def stop_keywords : List String :=
  [ "size:",
    "word or mssg:",
    "word or message:",
    "morse code:",
    "quantity:",
    "sku:",
    "private notes",
    "scheduled to ship by",
    "note from buyer",
    "do the green thing",
    "reuse this paper to make origami, confetti",
    "or your next to-do list." ]

/-- `any(desc in lower_line for desc in item_descriptors)`. -/
def isDescriptor (l : String) : Bool :=
  item_descriptors.any (fun d => containsLower l d)

/-- `"custom" in lower_line`. -/
def hasCustom (l : String) : Bool :=
  containsLower l "custom"

/-- `personalization_marker in lower_line`. -/
def isMarker (l : String) : Bool :=
  containsLower l personalization_marker

/-- One step of the `current_item_has_custom` flag update: a descriptor
line re-sets the flag to whether it contains "custom", any other line
leaves it unchanged. -/
def updFlag (f : Bool) (l : String) : Bool :=
  if isDescriptor l then hasCustom l else f

/-- A line at which the inner block loop stops: any stop keyword, or
another "personalization:" marker. -/
def isBlockStop (l : String) : Bool :=
  stop_keywords.any (fun kw => containsLower l kw) || isMarker l

/-- The inner `while next_idx < len(lines_data)` loop: consume continuation
lines until a stop line; return the block's continuation lines and the
remaining lines starting at the stop line. -/
def blockSpan : List String → List String × List String
  | [] => ([], [])
  | l :: rest =>
    if isBlockStop l then
      ([], l :: rest)
    else
      let p := blockSpan rest
      (l :: p.1, p.2)

/-- The outer `while idx < len(lines_data)` loop over a page's lines.
`pos` is the Python index `idx`; the result lists the opened
personalization blocks as (marker-line index, marker-line text,
continuation lines).  The loop body runs at most once per remaining line,
so the list length is an adequate fuel bound. -/
def persScanFuel : Nat → List String → Nat → Bool → List (Nat × String × List String)
  | 0, _, _, _ => []
  | _ + 1, [], _, _ => []
  | fuel + 1, l :: rest, pos, flag =>
    let flag' := updFlag flag l
    if isMarker l && flag' then
      let p := blockSpan rest
      (pos, l, p.1) :: persScanFuel fuel p.2 (pos + 1 + p.1.length) flag'
    else
      persScanFuel fuel rest (pos + 1) flag'

/-- Per-page personalization scan: `idx` starts at 0 and
`current_item_has_custom` starts `False`. -/
def persScanPage (ls : List String) : List (Nat × String × List String) :=
  persScanFuel ls.length ls 0 false

/-- Blocks listed with nondecreasing, nonoverlapping extents: each block
occupies lines `[n, n + bl.length]` and the next block starts strictly
later. -/
def ChainedFrom : Nat → List (Nat × String × List String) → Prop
  | _, [] => True
  | lo, b :: rest => lo ≤ b.1 ∧ ChainedFrom (b.1 + b.2.2.length + 1) rest

/-! ### Quantity highlighting (source lines 454–475) -/

/-- Nonempty all-digit run to a number (helper for `parsePyInt`). -/
def digitsVal : List Char → Option Nat
  | [] => none
  | cs =>
    if cs.all Char.isDigit then
      some (cs.foldl (fun n c => 10 * n + (c.toNat - 48)) 0)
    else
      none

/-- Model of Python's `int(s)`: surrounding whitespace stripped, optional
sign, then a nonempty digit run; anything else raises (returns `none`). -/
def parsePyInt (s : String) : Option Int :=
  match trimList s.toList with
  | '-' :: rest => (digitsVal rest).map (fun n => -(n : Int))
  | '+' :: rest => (digitsVal rest).map (fun n => (n : Int))
  | cs => (digitsVal cs).map (fun n => (n : Int))

/-- The per-line quantity loop: find the first word token starting with
"quantity:" (the `enumerate` loop with `break`); if a token follows it,
try to parse that token as an integer and highlight its rect when the
value is ≥ 2; otherwise (missing token or failed parse) do nothing. -/
def quantityScan : List Word → Option Rect
  | [] => none
  | w :: ws =>
    if startsWithLower w.text "quantity:" then
      match ws with
      | [] => none
      | w2 :: _ =>
        match parsePyInt w2.text with
        | some v => if 2 ≤ v then some w2.rect else none
        | none => none
    else
      quantityScan ws

/-- Quantity highlight produced for one line
(guarded by `"quantity:" in lower_line`). -/
def quantityHighlightLine (l : Line) : Option Rect :=
  if containsLower l.text "quantity:" then quantityScan l.words else none

/-! ### Ship-to extraction (source lines 477–491) -/

/-- The name extracted from the line following a "ship to" line: first two
word tokens joined by a space, or the full line text when fewer than two
word tokens exist. -/
def shipToName (nl : Line) : String :=
  if 2 ≤ nl.words.length then
    String.intercalate " " ((nl.words.take 2).map (fun w => w.text))
  else
    nl.text

/-- The per-page ship-to loop: at the first line containing "ship to"
(case-insensitively) the loop breaks; an entry is appended only when a
next line exists.  Result: the list of entries recorded for the page. -/
def shipToScan : List Line → List String
  | [] => []
  | l :: rest =>
    if containsLower l.text "ship to" then
      match rest with
      | [] => []
      | nl :: _ => [shipToName nl]
    else
      shipToScan rest

/-! ### 2-up composition (`create_two_up_pdf`, source lines 48–86)

A source page is modelled by its emptiness flag (`true` = PyMuPDF judges
the page empty, so `place_page_full` raises `ValueError` and the cell is
skipped).  A sheet is the pair of its (left, right) cells, a cell holding
the source page index it shows, or `none` when skipped/absent. -/

/-- The `for i in range(0, num_pages, 2)` loop: one sheet per iteration,
left cell from page `i`, right cell from page `i+1` when present. -/
def twoUpSheets : List Bool → Nat → List (Option Nat × Option Nat)
  | [], _ => []
  | [p], i => [(if p then none else some i, none)]
  | p :: q :: rest, i =>
    (if p then none else some i, if q then none else some (i + 1))
      :: twoUpSheets rest (i + 2)

/-- The content of sheet cell for source index `j` (offset `i`):
the page shown there, or `none` if absent or skipped as empty. -/
def cellAt (pages : List Bool) (i j : Nat) : Option Nat :=
  match pages.get? j with
  | some e => if e then none else some (i + j)
  | none => none

/-! ### Thumbnail composition (`create_six_page_thumbnail_pdf`,
source lines 89–135) -/

/-- Chunking of `page_indexes` into runs of `thumbs_per_page = 6`
(the `for start_idx in range(0, len(page_indexes), thumbs_per_page)`
loop).  The loop runs at most once per element, so the list length is an
adequate fuel bound. -/
def chunksOf6 {α : Type} : Nat → List α → List (List α)
  | 0, _ => []
  | _ + 1, [] => []
  | fuel + 1, a :: l =>
    (a :: l).take 6 :: chunksOf6 fuel ((a :: l).drop 6)

/-- One output sheet from a chunk of (source index, emptiness) pairs:
cell `i` goes to row `i / 3`, column `i % 3`; empty source pages are
skipped (`ValueError` caught).  A placement is
(source page index, row, column). -/
def sheetOf (chunk : List (Nat × Bool)) : List (Nat × Nat × Nat) :=
  chunk.enum.filterMap
    (fun p => if p.2.2 then none else some (p.2.1, p.1 / 3, p.1 % 3))

/-- The thumbnail composer: no output for fewer than 2 source pages;
otherwise tile `page_indexes = range(1, num_pages)` (skipping the leading
index page 0) into sheets of 6 cells. -/
def thumbSheets (pages : List Bool) : List (List (Nat × Nat × Nat)) :=
  if pages.length < 2 then []
  else
    let idxs := pages.enum.drop 1
    (chunksOf6 idxs.length idxs).map sheetOf

/-! ### Options, page watermark and index-page ship-to flush
(source lines 535–565) -/

/-- The checkbox options dictionary consulted by `process_pdf_file`. -/
structure Options where
  crop_pages : Bool
  highlight_gmi : Bool
  highlight_gift_snippet : Bool
  extract_text : Bool
  highlight_personalization : Bool
  highlight_quantity : Bool
  add_stamps : Bool
  apply_watermark : Bool
deriving DecidableEq

/-- Python truthiness of `watermark_text.strip()`. -/
def watermarkActive (opts : Options) (wtext : String) : Bool :=
  opts.apply_watermark && !(trimList wtext.toList).isEmpty

/-- The watermark text inserted on a content page (step H):
`if options['apply_watermark'] and watermark_text.strip():`. -/
def pageWatermark (opts : Options) (wtext : String) : Option String :=
  if watermarkActive opts wtext then some wtext else none

/-- The texts written onto the leading blank index page (step I): one
`f"{watermark_text}{pnum}: {name}"` line per collected ship-to entry,
only when the watermark is active. -/
def indexPageTexts (opts : Options) (wtext : String)
    (shipTo : List (Nat × String)) : List String :=
  if watermarkActive opts wtext then
    shipTo.map (fun e => wtext ++ toString e.1 ++ ": " ++ e.2)
  else
    []

/-- Step F of the per-page loop: ship-to extraction is unconditional, it
consults no option. -/
def shipToStep (_opts : Options) (ls : List Line) : List String :=
  shipToScan ls

/-! ## Theorems -/

/-! ### C1: gift-snippet expansion rectangle geometry -/

/-- C1 (counterexample): at the concrete trigger instance
(100, 400, 200, 410), the expansion rectangle does NOT extend 72pt above
(toward smaller y) and 216pt below (toward larger y) as the claim states:
the code subtracts `expand_down = 216` from `y0` and adds
`expand_up = 72` to `y1`, so the box extends 216pt above and 72pt below. -/
theorem giftExpand_claim_false :
    ¬((Rect.mk 100 400 200 410).y0 - (expandedGiftRect (Rect.mk 100 400 200 410)).y0 = 72 ∧
      (expandedGiftRect (Rect.mk 100 400 200 410)).y1 - (Rect.mk 100 400 200 410).y1 = 216) := by
  decide

/-- C1 (amended): for every trigger instance, the expansion rectangle
extends 36pt to the left, 36pt to the right, 216pt above the instance
(toward smaller y) and 72pt below it (toward larger y). -/
theorem giftExpand_extents (inst : Rect) :
    inst.x0 - (expandedGiftRect inst).x0 = 36 ∧
    (expandedGiftRect inst).x1 - inst.x1 = 36 ∧
    inst.y0 - (expandedGiftRect inst).y0 = 216 ∧
    (expandedGiftRect inst).y1 - inst.y1 = 72 := by
  simp [expandedGiftRect, giftExpandLeft, giftExpandRight, giftExpandUp, giftExpandDown]

/-! ### C2: gift-message capture window -/

theorem captureLoop_skip (pre xs : List String)
    (h : ∀ l ∈ pre, hasGiftTrigger l = false) :
    captureLoop (pre ++ xs) false = captureLoop xs false := by
  induction pre with
  | nil => rfl
  | cons a pre ih =>
    have ha : hasGiftTrigger a = false := h a (List.mem_cons_self a pre)
    simp only [List.cons_append, captureLoop, ha]
    exact ih (fun l hl => h l (List.mem_cons_of_mem a hl))

theorem captureLoop_copy (mid xs : List String)
    (h : ∀ l ∈ mid, hasGiftTrigger l = false) :
    captureLoop (mid ++ xs) true = mid ++ captureLoop xs true := by
  induction mid with
  | nil => rfl
  | cons a mid ih =>
    have ha : hasGiftTrigger a = false := h a (List.mem_cons_self a mid)
    simp only [List.cons_append, captureLoop, ha, if_true, Bool.false_eq_true,
      if_false, List.append_eq]
    rw [ih (fun l hl => h l (List.mem_cons_of_mem a hl))]

/-- C2: over a sequence of surviving snippet lines whose first trigger
line is `t1`, the capture runs from `t1` (inclusive) up to (but excluding)
the second trigger line `t2`; with no second trigger line it runs to the
end of the sequence. -/
theorem giftCapture_window (pre mid rest : List String) (t1 t2 : String)
    (hpre : ∀ l ∈ pre, hasGiftTrigger l = false)
    (ht1 : hasGiftTrigger t1 = true)
    (hmid : ∀ l ∈ mid, hasGiftTrigger l = false)
    (ht2 : hasGiftTrigger t2 = true) :
    captureGift (pre ++ t1 :: (mid ++ t2 :: rest)) = t1 :: mid ∧
    captureGift (pre ++ t1 :: mid) = t1 :: mid := by
  constructor
  · unfold captureGift
    rw [captureLoop_skip pre _ hpre]
    simp only [captureLoop, ht1, if_true]
    rw [captureLoop_copy mid _ hmid]
    simp [captureLoop, ht2]
  · unfold captureGift
    rw [captureLoop_skip pre _ hpre]
    simp only [captureLoop, ht1, if_true]
    have h2 := captureLoop_copy mid [] hmid
    simpa [captureLoop] using h2

/-- Witness for `giftCapture_window` on concrete lines. -/
theorem giftCapture_window_witness :
    captureGift (["order 1"] ++ "Gift Message: hello" :: (["love, A"] ++ "gift message included" :: ["zz"]))
      = "Gift Message: hello" :: ["love, A"] ∧
    captureGift (["order 1"] ++ "Gift Message: hello" :: ["love, A"])
      = "Gift Message: hello" :: ["love, A"] :=
  giftCapture_window ["order 1"] ["love, A"] ["zz"] "Gift Message: hello"
    "gift message included" (by decide) (by decide) (by decide) (by decide)

/-! ### C7: gift-message per-page dedup -/

theorem giftDedup_spec : ∀ (ts seen : List String),
    (∀ t, t ∈ giftDedup ts seen ↔ (t ∈ ts ∧ t ≠ "" ∧ seen.contains t = false)) ∧
    (giftDedup ts seen).Nodup := by
  intro ts
  induction ts with
  | nil =>
    intro seen
    constructor
    · intro t; simp [giftDedup]
    · simp [giftDedup]
  | cons a ts ih =>
    intro seen
    cases hb : (decide (a ≠ "") && !seen.contains a) with
    | true =>
      have hne : a ≠ "" := by
        have h1 := (Bool.and_eq_true _ _).mp hb
        simpa using h1.1
      have hns : seen.contains a = false := by
        have h1 := (Bool.and_eq_true _ _).mp hb
        simpa using h1.2
      have hd : giftDedup (a :: ts) seen = a :: giftDedup ts (a :: seen) := by
        simp only [giftDedup, hb, if_true]
      rw [hd]
      constructor
      · intro x
        rw [List.mem_cons, (ih (a :: seen)).1 x]
        constructor
        · rintro (rfl | ⟨hx1, hx2, hx3⟩)
          · exact ⟨List.mem_cons_self _ _, hne, hns⟩
          · simp only [List.contains_cons, Bool.or_eq_false_iff] at hx3
            exact ⟨List.mem_cons_of_mem a hx1, hx2, hx3.2⟩
        · rintro ⟨hx1, hx2, hx3⟩
          by_cases hxa : x = a
          · exact Or.inl hxa
          · rcases List.mem_cons.mp hx1 with rfl | hx1'
            · exact absurd rfl hxa
            · refine Or.inr ⟨hx1', hx2, ?_⟩
              simp only [List.contains_cons, Bool.or_eq_false_iff]
              exact ⟨by simpa using hxa, hx3⟩
      · refine List.Nodup.cons ?_ (ih (a :: seen)).2
        intro hmem
        have := ((ih (a :: seen)).1 a).mp hmem
        simp [List.contains_cons] at this
    | false =>
      have hd : giftDedup (a :: ts) seen = giftDedup ts seen := by
        simp only [giftDedup, hb, Bool.false_eq_true, if_false]
      rw [hd]
      constructor
      · intro x
        rw [(ih seen).1 x]
        constructor
        · rintro ⟨hx1, hx2, hx3⟩
          exact ⟨List.mem_cons_of_mem a hx1, hx2, hx3⟩
        · rintro ⟨hx1, hx2, hx3⟩
          rcases List.mem_cons.mp hx1 with rfl | hx1'
          · exfalso
            simp only [Bool.and_eq_false_iff] at hb
            rcases hb with hb | hb
            · simp at hb; exact hx2 hb
            · have hc : seen.contains x = true := by simpa using hb
              rw [hx3] at hc; cases hc
          · exact ⟨hx1', hx2, hx3⟩
      · exact (ih seen).2

/-- C7: for each page, the recorded gift-message entries are distinct
(at most one entry per distinct trimmed snippet text), an entry exists
exactly for the nonempty captured texts, and an empty captured text
records no entry. -/
theorem giftEntries_unique (texts : List String) (t : String) :
    (recordGiftEntries texts).Nodup ∧
    (t ∈ recordGiftEntries texts ↔ (t ∈ texts ∧ t ≠ "")) := by
  have h := giftDedup_spec texts []
  refine ⟨h.2, ?_⟩
  rw [recordGiftEntries] at *
  rw [h.1 t]
  simp

/-! ### C5: quantity highlighting -/

theorem quantityScan_decomp (ws : List Word) (h : (quantityScan ws).isSome = true) :
    ∃ ws1 w1 w2 ws2 v,
      ws = ws1 ++ w1 :: w2 :: ws2 ∧
      (∀ w ∈ ws1, startsWithLower w.text "quantity:" = false) ∧
      startsWithLower w1.text "quantity:" = true ∧
      parsePyInt w2.text = some v ∧ 2 ≤ v ∧
      quantityScan ws = some w2.rect := by
  induction ws with
  | nil => simp [quantityScan] at h
  | cons w ws ih =>
    cases hs : startsWithLower w.text "quantity:" with
    | true =>
      cases ws with
      | nil => simp [quantityScan, hs] at h
      | cons w2 ws' =>
        cases hp : parsePyInt w2.text with
        | none => simp [quantityScan, hs, hp] at h
        | some v =>
          by_cases hv : 2 ≤ v
          · exact ⟨[], w, w2, ws', v, rfl, by simp, hs, hp, hv,
              by simp [quantityScan, hs, hp, hv]⟩
          · simp [quantityScan, hs, hp, hv] at h
    | false =>
      have hq : quantityScan (w :: ws) = quantityScan ws := by
        simp [quantityScan, hs]
      rw [hq] at h
      obtain ⟨ws1, w1, w2, ws2, v, heq, hws1, hw1, hp, hv, hres⟩ := ih h
      refine ⟨w :: ws1, w1, w2, ws2, v, by rw [heq, List.cons_append], ?_, hw1, hp, hv,
        by rw [hq, hres]⟩
      intro x hx
      rcases List.mem_cons.mp hx with rfl | hx'
      · exact hs
      · exact hws1 x hx'

/-- C5: for a line containing "quantity:", a quantity highlight is
produced iff the first word token starting with "quantity:" has an
immediately following token parsing as an integer ≥ 2; the highlight is
that following token's rect, and a missing or non-numeric following token
produces nothing (the parse failure is absorbed, not an error). -/
theorem quantityHighlight_iff (l : Line)
    (h : containsLower l.text "quantity:" = true) :
    (quantityHighlightLine l).isSome = true ↔
    ∃ ws1 w1 w2 ws2 v,
      l.words = ws1 ++ w1 :: w2 :: ws2 ∧
      (∀ w ∈ ws1, startsWithLower w.text "quantity:" = false) ∧
      startsWithLower w1.text "quantity:" = true ∧
      parsePyInt w2.text = some v ∧ 2 ≤ v ∧
      quantityHighlightLine l = some w2.rect := by
  have hq : quantityHighlightLine l = quantityScan l.words := by
    simp [quantityHighlightLine, h]
  rw [hq]
  constructor
  · exact quantityScan_decomp l.words
  · rintro ⟨ws1, w1, w2, ws2, v, heq, hws1, hw1, hp, hv, hres⟩
    rw [hres]
    rfl

/-- Witness for `quantityHighlight_iff` on a concrete line. -/
theorem quantityHighlight_iff_witness :
    (quantityHighlightLine (Line.mk "Quantity: 3" (Rect.mk 0 0 100 10)
      [Word.mk (Rect.mk 0 0 40 10) "Quantity:",
       Word.mk (Rect.mk 45 0 55 10) "3"])).isSome = true :=
  (quantityHighlight_iff _ (by decide)).mpr
    ⟨[], Word.mk (Rect.mk 0 0 40 10) "Quantity:",
      Word.mk (Rect.mk 45 0 55 10) "3", [], 3,
      rfl, by simp, by decide, by decide, by decide, by decide⟩

/-! ### C6: ship-to extraction -/

theorem shipToScan_len : ∀ ls : List Line, (shipToScan ls).length ≤ 1 := by
  intro ls
  induction ls with
  | nil => simp [shipToScan]
  | cons l rest ih =>
    by_cases hl : containsLower l.text "ship to" = true
    · cases rest with
      | nil => simp [shipToScan, hl]
      | cons nl rest' => simp [shipToScan, hl]
    · have : containsLower l.text "ship to" = false := by
        cases hx : containsLower l.text "ship to"
        · rfl
        · exact absurd hx hl
      simpa [shipToScan, this] using ih

/-- C6: at most one ship-to entry per page; the entry comes from the first
line containing "ship to" (case-insensitively), scanning stops there, and
the extracted name is the next line's first two word tokens joined by a
space, or the next line's full text when it has fewer than two word
tokens. -/
theorem shipTo_first_match (ls pre : List Line) (l nl : Line) (rest : List Line)
    (hpre : ∀ p ∈ pre, containsLower p.text "ship to" = false)
    (hl : containsLower l.text "ship to" = true) :
    (shipToScan ls).length ≤ 1 ∧
    shipToScan (pre ++ l :: nl :: rest) = [shipToName nl] ∧
    shipToName nl = (if 2 ≤ nl.words.length then
        String.intercalate " " ((nl.words.take 2).map (fun w => w.text))
      else nl.text) := by
  refine ⟨shipToScan_len ls, ?_, rfl⟩
  induction pre with
  | nil => simp [shipToScan, hl]
  | cons p pre ih =>
    have hp : containsLower p.text "ship to" = false :=
      hpre p (List.mem_cons_self p pre)
    simp only [List.cons_append, shipToScan, hp, Bool.false_eq_true, if_false]
    exact ih (fun x hx => hpre x (List.mem_cons_of_mem p hx))

/-- Witness for `shipTo_first_match` on concrete lines. -/
theorem shipTo_first_match_witness :
    (shipToScan [Line.mk "nothing" (Rect.mk 0 0 1 1) []]).length ≤ 1 ∧
    shipToScan ([Line.mk "order" (Rect.mk 0 0 9 1) []] ++
        (Line.mk "Ship To:" (Rect.mk 0 2 9 3) []) ::
        (Line.mk "Alice Smith Co" (Rect.mk 0 4 9 5)
          [Word.mk (Rect.mk 0 4 2 5) "Alice",
           Word.mk (Rect.mk 3 4 5 5) "Smith",
           Word.mk (Rect.mk 6 4 8 5) "Co"]) :: [])
      = [shipToName (Line.mk "Alice Smith Co" (Rect.mk 0 4 9 5)
          [Word.mk (Rect.mk 0 4 2 5) "Alice",
           Word.mk (Rect.mk 3 4 5 5) "Smith",
           Word.mk (Rect.mk 6 4 8 5) "Co"])] ∧
    shipToName (Line.mk "Alice Smith Co" (Rect.mk 0 4 9 5)
          [Word.mk (Rect.mk 0 4 2 5) "Alice",
           Word.mk (Rect.mk 3 4 5 5) "Smith",
           Word.mk (Rect.mk 6 4 8 5) "Co"])
      = (if 2 ≤ (Line.mk "Alice Smith Co" (Rect.mk 0 4 9 5)
          [Word.mk (Rect.mk 0 4 2 5) "Alice",
           Word.mk (Rect.mk 3 4 5 5) "Smith",
           Word.mk (Rect.mk 6 4 8 5) "Co"]).words.length then
        String.intercalate " " (((Line.mk "Alice Smith Co" (Rect.mk 0 4 9 5)
          [Word.mk (Rect.mk 0 4 2 5) "Alice",
           Word.mk (Rect.mk 3 4 5 5) "Smith",
           Word.mk (Rect.mk 6 4 8 5) "Co"]).words.take 2).map (fun w => w.text))
      else (Line.mk "Alice Smith Co" (Rect.mk 0 4 9 5)
          [Word.mk (Rect.mk 0 4 2 5) "Alice",
           Word.mk (Rect.mk 3 4 5 5) "Smith",
           Word.mk (Rect.mk 6 4 8 5) "Co"]).text) :=
  shipTo_first_match [Line.mk "nothing" (Rect.mk 0 0 1 1) []]
    [Line.mk "order" (Rect.mk 0 0 9 1) []] _ _ []
    (by intro p hp; simp at hp; rw [hp]; decide) (by decide)

/-! ### C10: watermark gating with blank watermark text -/

/-- C10: when `apply_watermark` is set but the watermark text is empty or
whitespace-only, no watermark text is inserted on any content page and
the collected ship-to entries are never written to the leading blank
index page, while ship-to extraction itself still runs (it consults no
option). -/
theorem watermark_blank (opts : Options) (ls : List Line) (wtext : String)
    (shipTo : List (Nat × String))
    (hw : opts.apply_watermark = true)
    (ht : trimList wtext.toList = []) :
    pageWatermark opts wtext = none ∧
    indexPageTexts opts wtext shipTo = [] ∧
    shipToStep opts ls = shipToScan ls := by
  have ha : watermarkActive opts wtext = false := by
    have ht' : trimList wtext.data = [] := ht
    simp [watermarkActive, hw, ht']
  exact ⟨by simp [pageWatermark, ha], by simp [indexPageTexts, ha], rfl⟩

/-- Witness for `watermark_blank` on a concrete run. -/
theorem watermark_blank_witness :
    pageWatermark (Options.mk true true true true true true true true) "  " = none ∧
    indexPageTexts (Options.mk true true true true true true true true) "  "
      [(1, "Alice Smith")] = [] ∧
    shipToStep (Options.mk true true true true true true true true)
      [Line.mk "Ship To:" (Rect.mk 0 0 1 1) []]
      = shipToScan [Line.mk "Ship To:" (Rect.mk 0 0 1 1) []] :=
  watermark_blank (Options.mk true true true true true true true true)
    [Line.mk "Ship To:" (Rect.mk 0 0 1 1) []] "  " [(1, "Alice Smith")]
    rfl (by decide)

/-! ### C8: 2-up composition -/

theorem twoUp_length (pages : List Bool) (i : Nat) :
    (twoUpSheets pages i).length = (pages.length + 1) / 2 := by
  induction pages, i using twoUpSheets.induct with
  | case1 i => simp [twoUpSheets]
  | case2 p i => simp [twoUpSheets]
  | case3 p q rest i ih =>
    simp only [twoUpSheets, List.length_cons, ih]
    omega

theorem cellAt_cons2 (p q : Bool) (rest : List Bool) (i j : Nat) :
    cellAt (p :: q :: rest) i (j + 2) = cellAt rest (i + 2) j := by
  unfold cellAt
  rw [show ((p :: q :: rest).get? (j + 2)) = rest.get? j from rfl]
  cases h : rest.get? j with
  | none => rfl
  | some e =>
    cases e
    · simp only [Bool.false_eq_true, if_false, Option.some.injEq]
      omega
    · simp

theorem twoUp_get (pages : List Bool) (i : Nat) :
    ∀ k, (twoUpSheets pages i).get? k =
      if 2 * k < pages.length then
        some (cellAt pages i (2 * k), cellAt pages i (2 * k + 1))
      else none := by
  induction pages, i using twoUpSheets.induct with
  | case1 i =>
    intro k
    simp [twoUpSheets, cellAt]
  | case2 p i =>
    intro k
    cases k with
    | zero => cases p <;> simp [twoUpSheets, cellAt]
    | succ k =>
      have h1 : ¬(2 * (k + 1) < ([p] : List Bool).length) := by
        simp only [List.length_singleton]
        omega
      rw [if_neg h1]
      simp [twoUpSheets]
  | case3 p q rest i ih =>
    intro k
    cases k with
    | zero => cases p <;> cases q <;> simp [twoUpSheets, cellAt]
    | succ k =>
      have hL : (twoUpSheets (p :: q :: rest) i).get? (k + 1)
          = (twoUpSheets rest (i + 2)).get? k := rfl
      rw [hL, ih k]
      have e1 : 2 * (k + 1) = 2 * k + 2 := by ring
      have e2 : 2 * k + 2 + 1 = 2 * k + 1 + 2 := by omega
      by_cases hk : 2 * k < rest.length
      · rw [if_pos hk, if_pos (by simp only [List.length_cons]; omega),
          e1, e2, cellAt_cons2, cellAt_cons2]
      · rw [if_neg hk, if_neg (by simp only [List.length_cons]; omega)]

/-- C8: for a source with at least one page, 2-up composition emits
`ceil(n/2)` sheets; sheet `k` shows page `2k` in its left cell and page
`2k+1` (when present) in its right cell, a cell being skipped (but the
sheet still emitted) when the renderer judges its source page empty; a
5-page source yields 3 sheets, the third with only its left cell filled. -/
theorem twoUp_spec (pages : List Bool) (k : Nat) (h : 1 ≤ pages.length) :
    (twoUpSheets pages 0).length = (pages.length + 1) / 2 ∧
    (twoUpSheets pages 0).get? k =
      (if 2 * k < pages.length then
        some (cellAt pages 0 (2 * k), cellAt pages 0 (2 * k + 1))
      else none) ∧
    twoUpSheets [false, false, false, false, false] 0
      = [(some 0, some 1), (some 2, some 3), (some 4, none)] :=
  ⟨twoUp_length pages 0, twoUp_get pages 0 k, by decide⟩

/-- Witness for `twoUp_spec`: a 5-page source, none of its pages empty. -/
theorem twoUp_spec_witness :
    (twoUpSheets [false, false, false, false, false] 0).length
      = (([false, false, false, false, false] : List Bool).length + 1) / 2 ∧
    (twoUpSheets [false, false, false, false, false] 0).get? 2 =
      (if 2 * 2 < ([false, false, false, false, false] : List Bool).length then
        some (cellAt [false, false, false, false, false] 0 (2 * 2),
          cellAt [false, false, false, false, false] 0 (2 * 2 + 1))
      else none) ∧
    twoUpSheets [false, false, false, false, false] 0
      = [(some 0, some 1), (some 2, some 3), (some 4, none)] :=
  twoUp_spec [false, false, false, false, false] 2 (by decide)

/-! ### C9: thumbnail composition -/

theorem chunksOf6_length {α : Type} :
    ∀ (f : Nat) (l : List α), l.length ≤ f →
      (chunksOf6 f l).length = (l.length + 5) / 6 := by
  intro f
  induction f with
  | zero =>
    intro l hl
    have h0 : l = [] := List.eq_nil_of_length_eq_zero (Nat.le_zero.mp hl)
    subst h0
    simp [chunksOf6]
  | succ f ih =>
    intro l hl
    cases l with
    | nil => simp [chunksOf6]
    | cons a l' =>
      simp only [List.length_cons] at hl
      simp only [chunksOf6, List.length_cons]
      rw [ih ((a :: l').drop 6) (by simp only [List.length_drop, List.length_cons]; omega)]
      simp only [List.length_drop, List.length_cons]
      omega

theorem chunksOf6_get {α : Type} :
    ∀ (f : Nat) (l : List α) (s : Nat), l.length ≤ f →
      (chunksOf6 f l).get? s =
        if 6 * s < l.length then some ((l.drop (6 * s)).take 6) else none := by
  intro f
  induction f with
  | zero =>
    intro l s hl
    have h0 : l = [] := List.eq_nil_of_length_eq_zero (Nat.le_zero.mp hl)
    subst h0
    simp [chunksOf6]
  | succ f ih =>
    intro l s hl
    cases l with
    | nil => simp [chunksOf6]
    | cons a l' =>
      cases s with
      | zero => simp [chunksOf6]
      | succ s =>
        simp only [List.length_cons] at hl
        have hL : (chunksOf6 (f + 1) (a :: l')).get? (s + 1)
            = (chunksOf6 f ((a :: l').drop 6)).get? s := rfl
        rw [hL, ih ((a :: l').drop 6) s
          (by simp only [List.length_drop, List.length_cons]; omega)]
        rw [List.drop_drop]
        have e1 : 6 + 6 * s = 6 * (s + 1) := by ring
        rw [e1]
        have hdl : (List.drop 6 (a :: l')).length = l'.length + 1 - 6 := by simp
        by_cases hc : 6 * (s + 1) < (a :: l').length
        · rw [if_pos (by rw [hdl]; simp only [List.length_cons] at hc; omega), if_pos hc]
        · rw [if_neg (by rw [hdl]; simp only [List.length_cons] at hc; omega), if_neg hc]

theorem thumb_empty (pages : List Bool) (h : pages.length < 2) :
    thumbSheets pages = [] := by
  simp only [thumbSheets]
  rw [if_pos h]

theorem thumb_length (pages : List Bool) (h : 2 ≤ pages.length) :
    (thumbSheets pages).length = (pages.length - 1 + 5) / 6 := by
  simp only [thumbSheets]
  rw [if_neg (by omega)]
  simp only [List.length_map]
  rw [chunksOf6_length _ _ (le_refl _)]
  simp

theorem thumb_get (pages : List Bool) (s : Nat) (h : 2 ≤ pages.length) :
    (thumbSheets pages).get? s =
      if 6 * s < pages.length - 1 then
        some (sheetOf (((pages.enum.drop 1).drop (6 * s)).take 6))
      else none := by
  simp only [thumbSheets]
  rw [if_neg (by omega)]
  rw [List.get?_map, chunksOf6_get _ _ _ (le_refl _)]
  have hlen : (pages.enum.drop 1).length = pages.length - 1 := by simp
  rw [hlen]
  by_cases hc : 6 * s < pages.length - 1
  · rw [if_pos hc, if_pos hc]
    rfl
  · rw [if_neg hc, if_neg hc]
    rfl

/-- C9: thumbnail composition skips the first source page (index 0),
tiles the remaining pages row-major into 3×2 cells filling one sheet
before starting the next, produces no output for a source with fewer than
2 pages, and a 7-page source yields exactly 1 sheet with all 6 cells
filled, content page 1 (raw index 1) in cell (row 0, col 0). -/
theorem thumb_spec (small big : List Bool) (s : Nat)
    (hsmall : small.length < 2) (hbig : 2 ≤ big.length) :
    thumbSheets small = [] ∧
    (thumbSheets big).length = (big.length - 1 + 5) / 6 ∧
    (thumbSheets big).get? s =
      (if 6 * s < big.length - 1 then
        some (sheetOf (((big.enum.drop 1).drop (6 * s)).take 6))
      else none) ∧
    thumbSheets (List.replicate 7 false)
      = [[(1, 0, 0), (2, 0, 1), (3, 0, 2), (4, 1, 0), (5, 1, 1), (6, 1, 2)]] :=
  ⟨thumb_empty small hsmall, thumb_length big hbig, thumb_get big s hbig, by decide⟩

/-- Witness for `thumb_spec`: a 1-page source and a 7-page source. -/
theorem thumb_spec_witness :
    thumbSheets [false] = [] ∧
    (thumbSheets (List.replicate 7 false)).length
      = ((List.replicate 7 false : List Bool).length - 1 + 5) / 6 ∧
    (thumbSheets (List.replicate 7 false)).get? 0 =
      (if 6 * 0 < (List.replicate 7 false : List Bool).length - 1 then
        some (sheetOf ((((List.replicate 7 false : List Bool).enum.drop 1).drop (6 * 0)).take 6))
      else none) ∧
    thumbSheets (List.replicate 7 false)
      = [[(1, 0, 0), (2, 0, 1), (3, 0, 2), (4, 1, 0), (5, 1, 1), (6, 1, 2)]] :=
  thumb_spec [false] (List.replicate 7 false) 0 (by decide) (by decide)

/-! ### C3, C4: personalization block scan -/

theorem blockSpan_append (ls : List String) :
    (blockSpan ls).1 ++ (blockSpan ls).2 = ls := by
  induction ls with
  | nil => rfl
  | cons l rest ih =>
    cases h : isBlockStop l with
    | true => simp [blockSpan, h]
    | false => simp [blockSpan, h, ih]

theorem blockSpan_not_stop (ls : List String) :
    ∀ x ∈ (blockSpan ls).1, isBlockStop x = false := by
  induction ls with
  | nil => intro x hx; simp [blockSpan] at hx
  | cons l rest ih =>
    intro x hx
    cases h : isBlockStop l with
    | true => rw [blockSpan] at hx; rw [h] at hx; simp at hx
    | false =>
      rw [blockSpan] at hx
      rw [h] at hx
      simp only [Bool.false_eq_true, if_false] at hx
      rcases List.mem_cons.mp hx with rfl | hx'
      · exact h
      · exact ih x hx'

theorem descriptor_is_stop (x : String) (h : isDescriptor x = true) :
    isBlockStop x = true := by
  simp only [isDescriptor, item_descriptors, List.any_cons, List.any_nil,
    Bool.or_eq_true, Bool.or_false] at h
  simp only [isBlockStop, stop_keywords, List.any_cons, List.any_nil,
    Bool.or_eq_true, Bool.or_false]
  tauto

theorem foldl_updFlag_no_desc (bl : List String) (f : Bool)
    (h : ∀ x ∈ bl, isDescriptor x = false) :
    List.foldl updFlag f bl = f := by
  induction bl with
  | nil => rfl
  | cons b bl ih =>
    rw [List.foldl_cons,
      show updFlag f b = f from by simp [updFlag, h b (List.mem_cons_self b bl)]]
    exact ih (fun x hx => h x (List.mem_cons_of_mem b hx))

theorem persScan_pos_le :
    ∀ (fuel : Nat) (ls : List String) (pos : Nat) (flag : Bool)
      (b : Nat × String × List String),
      b ∈ persScanFuel fuel ls pos flag → pos ≤ b.1 := by
  intro fuel
  induction fuel with
  | zero => intro ls pos flag b hb; simp [persScanFuel] at hb
  | succ fuel ih =>
    intro ls pos flag b hb
    cases ls with
    | nil => simp [persScanFuel] at hb
    | cons l rest =>
      simp only [persScanFuel] at hb
      by_cases hcond : (isMarker l && updFlag flag l) = true
      · rw [if_pos hcond] at hb
        rcases List.mem_cons.mp hb with rfl | hb'
        · exact le_refl _
        · have := ih _ _ _ b hb'
          omega
      · rw [if_neg hcond] at hb
        have := ih _ _ _ b hb
        omega

theorem persScan_gate :
    ∀ (fuel : Nat) (ls : List String) (pos : Nat) (flag : Bool)
      (b : Nat × String × List String),
      ls.length ≤ fuel →
      b ∈ persScanFuel fuel ls pos flag →
      isMarker b.2.1 = true ∧
      List.foldl updFlag flag (ls.take (b.1 + 1 - pos)) = true := by
  intro fuel
  induction fuel with
  | zero => intro ls pos flag b hl hb; simp [persScanFuel] at hb
  | succ fuel ih =>
    intro ls pos flag b hl hb
    cases ls with
    | nil => simp [persScanFuel] at hb
    | cons l rest =>
      simp only [List.length_cons] at hl
      simp only [persScanFuel] at hb
      by_cases hcond : (isMarker l && updFlag flag l) = true
      · rw [if_pos hcond] at hb
        have hmarker : isMarker l = true := ((Bool.and_eq_true _ _).mp hcond).1
        have hflag : updFlag flag l = true := ((Bool.and_eq_true _ _).mp hcond).2
        rcases List.mem_cons.mp hb with rfl | hb'
        · refine ⟨hmarker, ?_⟩
          show List.foldl updFlag flag ((l :: rest).take (pos + 1 - pos)) = true
          have e : pos + 1 - pos = 1 := by omega
          rw [e, List.take_succ_cons, List.take_zero, List.foldl_cons, List.foldl_nil]
          exact hflag
        · have hlen2 : (blockSpan rest).2.length ≤ fuel := by
            have hsplit := congrArg List.length (blockSpan_append rest)
            simp only [List.length_append] at hsplit
            omega
          have hrec := ih (blockSpan rest).2 (pos + 1 + (blockSpan rest).1.length)
            (updFlag flag l) b hlen2 hb'
          have hpos := persScan_pos_le fuel (blockSpan rest).2
            (pos + 1 + (blockSpan rest).1.length) (updFlag flag l) b hb'
          refine ⟨hrec.1, ?_⟩
          have e0 : b.1 + 1 - pos = (b.1 - pos) + 1 := by omega
          rw [e0, List.take_succ_cons, List.foldl_cons]
          rw [← blockSpan_append rest, List.take_append_eq_append_take]
          have htake1 : (blockSpan rest).1.take (b.1 - pos) = (blockSpan rest).1 :=
            List.take_of_length_le (by omega)
          rw [htake1, List.foldl_append]
          rw [foldl_updFlag_no_desc (blockSpan rest).1 _ (fun x hx => by
            cases hd : isDescriptor x with
            | false => rfl
            | true =>
              have h1 := descriptor_is_stop x hd
              rw [blockSpan_not_stop rest x hx] at h1
              exact Bool.noConfusion h1)]
          have e1 : b.1 - pos - (blockSpan rest).1.length
              = b.1 + 1 - (pos + 1 + (blockSpan rest).1.length) := by omega
          rw [e1]
          exact hrec.2
      · rw [if_neg hcond] at hb
        have hrec := ih rest (pos + 1) (updFlag flag l) b (by omega) hb
        have hpos := persScan_pos_le fuel rest (pos + 1) (updFlag flag l) b hb
        refine ⟨hrec.1, ?_⟩
        have e0 : b.1 + 1 - pos = (b.1 - pos) + 1 := by omega
        rw [e0, List.take_succ_cons, List.foldl_cons]
        have e1 : b.1 - pos = b.1 + 1 - (pos + 1) := by omega
        rw [e1]
        exact hrec.2

theorem foldl_updFlag_true_split (L : List String)
    (h : List.foldl updFlag false L = true) :
    ∃ l1 d l2, L = l1 ++ d :: l2 ∧ isDescriptor d = true ∧ hasCustom d = true ∧
      ∀ x ∈ l2, isDescriptor x = false := by
  induction L using List.reverseRecOn with
  | nil => simp at h
  | append_singleton L x ih =>
    rw [List.foldl_append, List.foldl_cons, List.foldl_nil] at h
    cases hd : isDescriptor x with
    | true =>
      simp only [updFlag, hd, if_true] at h
      exact ⟨L, x, [], rfl, hd, h, by simp⟩
    | false =>
      simp only [updFlag, hd, Bool.false_eq_true, if_false] at h
      obtain ⟨l1, d, l2, heq, h3, h4, h5⟩ := ih h
      refine ⟨l1, d, l2 ++ [x], by rw [heq]; simp, h3, h4, ?_⟩
      intro y hy
      rcases List.mem_append.mp hy with hy1 | hy2
      · exact h5 y hy1
      · simp only [List.mem_singleton] at hy2
        rw [hy2]
        exact hd

/-- C3: any personalization block opened by the page scan opens at a
"personalization:" marker line, and the most recent item-descriptor line
at or before it contains "custom" (in particular such a descriptor line
exists, since the flag starts false with no prior descriptor; descriptor
lines later in the page re-set the flag and gate subsequent markers
independently). -/
theorem persScan_open_gated (ls : List String) (n : Nat) (s : String)
    (bl : List String) (h : (n, s, bl) ∈ persScanPage ls) :
    isMarker s = true ∧
    ∃ l1 d l2, ls.take (n + 1) = l1 ++ d :: l2 ∧
      isDescriptor d = true ∧ hasCustom d = true ∧
      ∀ x ∈ l2, isDescriptor x = false := by
  have hg := persScan_gate ls.length ls 0 false (n, s, bl) (le_refl _) h
  refine ⟨hg.1, ?_⟩
  have hf := hg.2
  simp only [Nat.sub_zero] at hf
  exact foldl_updFlag_true_split _ hf

/-- Witness for `persScan_open_gated`: a descriptor line marked "custom"
followed by a "personalization:" line opening a block. -/
theorem persScan_open_gated_witness :
    isMarker "Personalization: dog" = true ∧
    ∃ l1 d l2,
      (["word or message: custom ring", "Personalization: dog", "sku: 9"] :
        List String).take (1 + 1) = l1 ++ d :: l2 ∧
      isDescriptor d = true ∧ hasCustom d = true ∧
      ∀ x ∈ l2, isDescriptor x = false :=
  persScan_open_gated ["word or message: custom ring", "Personalization: dog", "sku: 9"]
    1 "Personalization: dog" [] (by decide)

theorem chained_mono (l : List (Nat × String × List String)) :
    ∀ lo lo', lo' ≤ lo → ChainedFrom lo l → ChainedFrom lo' l := by
  induction l with
  | nil => intro lo lo' h hc; trivial
  | cons b rest ih =>
    intro lo lo' h hc
    exact ⟨le_trans h hc.1, hc.2⟩

theorem chained_lb (l : List (Nat × String × List String)) :
    ∀ lo, ChainedFrom lo l → ∀ b ∈ l, lo ≤ b.1 := by
  induction l with
  | nil => intro lo hc b hb; simp at hb
  | cons c rest ih =>
    intro lo hc b hb
    rcases List.mem_cons.mp hb with rfl | hb'
    · exact hc.1
    · have := ih _ hc.2 b hb'
      have h1 := hc.1
      omega

theorem chained_pairwise (l : List (Nat × String × List String)) :
    ∀ lo, ChainedFrom lo l →
      List.Pairwise (fun a b => a.1 + a.2.2.length < b.1) l := by
  induction l with
  | nil => intro lo hc; exact List.Pairwise.nil
  | cons c rest ih =>
    intro lo hc
    refine List.Pairwise.cons ?_ (ih _ hc.2)
    intro b hb
    have := chained_lb rest _ hc.2 b hb
    omega

theorem persScan_chained :
    ∀ (fuel : Nat) (ls : List String) (pos : Nat) (flag : Bool),
      ls.length ≤ fuel → ChainedFrom pos (persScanFuel fuel ls pos flag) := by
  intro fuel
  induction fuel with
  | zero => intro ls pos flag hl; trivial
  | succ fuel ih =>
    intro ls pos flag hl
    cases ls with
    | nil => trivial
    | cons l rest =>
      simp only [List.length_cons] at hl
      simp only [persScanFuel]
      by_cases hcond : (isMarker l && updFlag flag l) = true
      · rw [if_pos hcond]
        refine ⟨le_refl pos, ?_⟩
        show ChainedFrom (pos + (blockSpan rest).1.length + 1) _
        have hlen2 : (blockSpan rest).2.length ≤ fuel := by
          have hsplit := congrArg List.length (blockSpan_append rest)
          simp only [List.length_append] at hsplit
          omega
        exact chained_mono _ _ _ (by omega)
          (ih (blockSpan rest).2 (pos + 1 + (blockSpan rest).1.length)
            (updFlag flag l) hlen2)
      · rw [if_neg hcond]
        exact chained_mono _ _ _ (by omega)
          (ih rest (pos + 1) (updFlag flag l) (by omega))

/-- C4: the personalization blocks of a page never overlap — each block
(occupying its marker line plus its continuation lines) ends strictly
before the next block's marker line, because the scan pointer resumes at
the block's closing line; and a "personalization:" line seen while the
custom flag is false opens no block, the scan advancing by exactly one
line. -/
theorem persScan_no_overlap (ls : List String) (fuel pos : Nat) (l : String)
    (rest : List String) (flag : Bool)
    (hm : isMarker l = true) (hf : updFlag flag l = false) :
    List.Pairwise (fun a b => a.1 + a.2.2.length < b.1) (persScanPage ls) ∧
    persScanFuel (fuel + 1) (l :: rest) pos flag
      = persScanFuel fuel rest (pos + 1) (updFlag flag l) := by
  constructor
  · exact chained_pairwise _ 0 (persScan_chained ls.length ls 0 false (le_refl _))
  · simp [persScanFuel, hm, hf]

/-- Witness for `persScan_no_overlap`: a concrete page and a
"personalization:" line with the custom flag off. -/
theorem persScan_no_overlap_witness :
    List.Pairwise (fun a b => a.1 + a.2.2.length < b.1)
      (persScanPage
        ["word or message: custom ring", "Personalization: dog", "sku: 9"]) ∧
    persScanFuel (1 + 1) ("personalization: y" :: ["z"]) 5 false
      = persScanFuel 1 ["z"] (5 + 1) (updFlag false "personalization: y") :=
  persScan_no_overlap ["word or message: custom ring", "Personalization: dog", "sku: 9"]
    1 5 "personalization: y" ["z"] false (by decide) (by decide)
